import Mathlib

set_option maxHeartbeats 1000000

/-
Shallow embedding of the seq2seq chatbot training pipeline (src/chatbot.py).

Modelling conventions:
- A sentence is represented by its list of space-separated words, so the
  repeated Python idiom sentence.split(" ") is the identity on this
  representation; the sort key len(pair[0].split(" ")) becomes pair.1.length.
- Python dicts are insertion-ordered association lists; dictInsert replaces
  in place when the key exists and appends otherwise, exactly as dict
  assignment does.
- A lookup that would raise KeyError is modelled by Option, and a function
  that can raise propagates none.
- Tensors are nested lists; the random number generator of the training
  loop is an explicit stream of rationals read at an incrementing counter.
-/

/-- PAD_token = 0, used for padding short sentences (src/chatbot.py line 174). -/
def PAD_token : Nat := 0

/-- SOS_token = 1, start-of-sentence token (line 175). -/
def SOS_token : Nat := 1

/-- EOS_token = 2, end-of-sentence token (line 176). -/
def EOS_token : Nat := 2

/-- Lookup in an insertion-ordered association list, the model of d[k]. -/
def dictLookup {α β : Type} [DecidableEq α] : List (α × β) → α → Option β
  | [], _ => none
  | (k0, v0) :: rest, k => if k0 = k then some v0 else dictLookup rest k

/-- Model of d[k] = v on a Python dict: replace in place if the key exists,
append otherwise. -/
def dictInsert {α β : Type} [DecidableEq α] : List (α × β) → α → β → List (α × β)
  | [], k, v => [(k, v)]
  | (k0, v0) :: rest, k, v =>
    if k0 = k then (k, v) :: rest else (k0, v0) :: dictInsert rest k v

/-- Model of d[k] += 1. In Python this raises KeyError when the key is
absent; that state is unreachable in Voc.addWord, which only increments
counts of words already present in word2count. -/
def dictIncr {α : Type} [DecidableEq α] : List (α × Nat) → α → List (α × Nat)
  | [], _ => []
  | (k0, v0) :: rest, k =>
    if k0 = k then (k0, v0 + 1) :: rest else (k0, v0) :: dictIncr rest k

/-- The Voc vocabulary class (src/chatbot.py lines 179-219). -/
structure Voc where
  name : String
  trimmed : Bool
  word2index : List (String × Nat)
  word2count : List (String × Nat)
  index2word : List (Nat × String)
  num_words : Nat
  deriving DecidableEq

/-- Voc.__init__ (lines 180-186). -/
def Voc.init (name : String) : Voc :=
  ⟨name, false, [], [],
    [(PAD_token, "PAD"), (SOS_token, "SOS"), (EOS_token, "EOS")], 3⟩

/-- Voc.addWord (lines 192-199). -/
def Voc.addWord (voc : Voc) (word : String) : Voc :=
  if dictLookup voc.word2index word = none then
    ⟨voc.name, voc.trimmed,
      dictInsert voc.word2index word voc.num_words,
      dictInsert voc.word2count word 1,
      dictInsert voc.index2word voc.num_words word,
      voc.num_words + 1⟩
  else
    ⟨voc.name, voc.trimmed, voc.word2index,
      dictIncr voc.word2count word, voc.index2word, voc.num_words⟩

/-- Voc.addSentence (lines 188-190); the sentence is its word list. -/
def Voc.addSentence (voc : Voc) (sentence : List String) : Voc :=
  sentence.foldl Voc.addWord voc

/-- Voc.trim (lines 202-219): no-op when already trimmed, otherwise set the
trimmed flag, collect the words with count at least min_count in insertion
order, reinitialize the dictionaries to the three reserved tokens, and
re-add every kept word. -/
def Voc.trim (voc : Voc) (min_count : Nat) : Voc :=
  if voc.trimmed then voc
  else
    let keep_words := (voc.word2count.filter (fun kv => min_count ≤ kv.2)).map Prod.fst
    let reinit : Voc :=
      ⟨voc.name, true, [], [],
        [(PAD_token, "PAD"), (SOS_token, "SOS"), (EOS_token, "EOS")], 3⟩
    keep_words.foldl Voc.addWord reinit

/-- The states a Voc object can be in during its lifetime: freshly
constructed, or the result of the methods addWord, addSentence, trim. -/
inductive Voc.Reachable : Voc → Prop
  | init (name : String) : Voc.Reachable (Voc.init name)
  | addWord (v : Voc) (w : String) : Voc.Reachable v → Voc.Reachable (v.addWord w)
  | addSentence (v : Voc) (s : List String) :
      Voc.Reachable v → Voc.Reachable (v.addSentence s)
  | trim (v : Voc) (m : Nat) : Voc.Reachable v → Voc.Reachable (v.trim m)

/-- Internal invariant of Voc: the three reserved indices are mapped in
index2word, num_words is at least 3, and every word index is at least 3. -/
def Voc.WF (v : Voc) : Prop :=
  dictLookup v.index2word PAD_token = some "PAD" ∧
  dictLookup v.index2word SOS_token = some "SOS" ∧
  dictLookup v.index2word EOS_token = some "EOS" ∧
  3 ≤ v.num_words ∧
  ∀ p ∈ v.word2index, 3 ≤ p.2

theorem dictLookup_dictInsert_ne {α β : Type} [DecidableEq α]
    (l : List (α × β)) (k k' : α) (v : β) (h : k' ≠ k) :
    dictLookup (dictInsert l k' v) k = dictLookup l k := by
  induction l with
  | nil => simp [dictInsert, dictLookup, h]
  | cons p rest ih =>
    obtain ⟨k0, v0⟩ := p
    by_cases hk : k0 = k'
    · subst hk
      simp [dictInsert, dictLookup, h]
    · simp only [dictInsert, if_neg hk]
      by_cases hk2 : k0 = k
      · simp [dictLookup, hk2]
      · simp [dictLookup, hk2, ih]

theorem mem_dictInsert {α β : Type} [DecidableEq α]
    (l : List (α × β)) (k : α) (v : β) (p : α × β) :
    p ∈ dictInsert l k v → p = (k, v) ∨ p ∈ l := by
  induction l with
  | nil =>
    intro h
    simpa [dictInsert] using h
  | cons q rest ih =>
    obtain ⟨k0, v0⟩ := q
    intro h
    by_cases hk : k0 = k
    · simp only [dictInsert, if_pos hk, List.mem_cons] at h
      rcases h with h1 | h1
      · exact Or.inl h1
      · exact Or.inr (List.mem_cons_of_mem _ h1)
    · simp only [dictInsert, if_neg hk, List.mem_cons] at h
      rcases h with h1 | h1
      · exact Or.inr (by simp [h1])
      · rcases ih h1 with h2 | h2
        · exact Or.inl h2
        · exact Or.inr (List.mem_cons_of_mem _ h2)

theorem Voc.WF.init (name : String) : (Voc.init name).WF := by
  refine ⟨rfl, rfl, rfl, le_refl 3, ?_⟩
  intro p hp
  simp [Voc.init] at hp

theorem Voc.WF.addWord {v : Voc} (hv : v.WF) (w : String) : (v.addWord w).WF := by
  obtain ⟨h0, h1, h2, hn, hw⟩ := hv
  unfold Voc.addWord
  by_cases hmem : dictLookup v.word2index w = none
  · simp only [if_pos hmem]
    have hne0 : v.num_words ≠ PAD_token := by
      simp only [PAD_token]; omega
    have hne1 : v.num_words ≠ SOS_token := by
      simp only [SOS_token]; omega
    have hne2 : v.num_words ≠ EOS_token := by
      simp only [EOS_token]; omega
    refine ⟨?_, ?_, ?_, show 3 ≤ v.num_words + 1 by omega, ?_⟩
    · rw [dictLookup_dictInsert_ne _ _ _ _ hne0]; exact h0
    · rw [dictLookup_dictInsert_ne _ _ _ _ hne1]; exact h1
    · rw [dictLookup_dictInsert_ne _ _ _ _ hne2]; exact h2
    · intro p hp
      rcases mem_dictInsert _ _ _ _ hp with h | h
      · subst h; exact hn
      · exact hw p h
  · simp only [if_neg hmem]
    exact ⟨h0, h1, h2, hn, hw⟩

theorem Voc.WF.foldl_addWord {v : Voc} (hv : v.WF) (ws : List String) :
    (ws.foldl Voc.addWord v).WF := by
  induction ws generalizing v with
  | nil => exact hv
  | cons w ws ih => exact ih (hv.addWord w)

theorem Voc.WF.addSentence {v : Voc} (hv : v.WF) (s : List String) :
    (v.addSentence s).WF :=
  hv.foldl_addWord s

theorem Voc.WF.trim {v : Voc} (hv : v.WF) (m : Nat) : (v.trim m).WF := by
  unfold Voc.trim
  by_cases h : v.trimmed
  · simp only [if_pos h]; exact hv
  · simp only [if_neg h]
    refine Voc.WF.foldl_addWord ?_ _
    refine ⟨rfl, rfl, rfl, le_refl 3, ?_⟩
    intro p hp
    simp at hp

theorem Voc.WF.of_reachable {v : Voc} (h : Voc.Reachable v) : v.WF := by
  induction h with
  | init name => exact Voc.WF.init name
  | addWord v w _ ih => exact ih.addWord w
  | addSentence v s _ ih => exact ih.addSentence s
  | trim v m _ ih => exact ih.trim m

/-- C9: the reserved vocabulary indices PAD=0, SOS=1, EOS=2 are invariant for
the lifetime of a Voc object: in every state reachable by the Voc methods
(including any number of trims) index2word still maps 0 to PAD, 1 to SOS and
2 to EOS, and no retained word is mapped by word2index to index 0, 1 or 2. -/
theorem voc_reserved_indices_invariant (v : Voc) (h : Voc.Reachable v) :
    dictLookup v.index2word PAD_token = some "PAD" ∧
    dictLookup v.index2word SOS_token = some "SOS" ∧
    dictLookup v.index2word EOS_token = some "EOS" ∧
    ∀ p ∈ v.word2index, p.2 ≠ PAD_token ∧ p.2 ≠ SOS_token ∧ p.2 ≠ EOS_token := by
  obtain ⟨h0, h1, h2, _, hw⟩ := Voc.WF.of_reachable h
  refine ⟨h0, h1, h2, ?_⟩
  intro p hp
  have := hw p hp
  refine ⟨?_, ?_, ?_⟩ <;> simp only [PAD_token, SOS_token, EOS_token] <;> omega

/-- Witness for C9 at a concrete vocabulary state. -/
theorem voc_reserved_indices_invariant_witness :
    dictLookup ((Voc.init "corpus").addWord "hello").index2word PAD_token = some "PAD" ∧
    dictLookup ((Voc.init "corpus").addWord "hello").index2word SOS_token = some "SOS" ∧
    dictLookup ((Voc.init "corpus").addWord "hello").index2word EOS_token = some "EOS" ∧
    ∀ p ∈ ((Voc.init "corpus").addWord "hello").word2index,
      p.2 ≠ PAD_token ∧ p.2 ≠ SOS_token ∧ p.2 ≠ EOS_token :=
  voc_reserved_indices_invariant _
    (Voc.Reachable.addWord _ _ (Voc.Reachable.init "corpus"))

theorem Voc.addWord_trimmed (v : Voc) (w : String) :
    (v.addWord w).trimmed = v.trimmed := by
  unfold Voc.addWord
  by_cases h : dictLookup v.word2index w = none <;> simp [h]

theorem Voc.foldl_addWord_trimmed (ws : List String) (v : Voc) :
    (ws.foldl Voc.addWord v).trimmed = v.trimmed := by
  induction ws generalizing v with
  | nil => rfl
  | cons w ws ih => rw [List.foldl_cons, ih, Voc.addWord_trimmed]

theorem Voc.trim_trimmed (v : Voc) (m : Nat) : (v.trim m).trimmed = true := by
  unfold Voc.trim
  by_cases h : v.trimmed
  · simp [h]
  · simp only [if_neg h]
    rw [Voc.foldl_addWord_trimmed]

theorem Voc.trim_of_trimmed (v : Voc) (m : Nat) (h : v.trimmed = true) :
    v.trim m = v := by
  unfold Voc.trim
  simp [h]

/-- C10: Voc.trim is effective at most once per object: the first call sets
the trimmed flag, and a second call with any threshold returns the
vocabulary unchanged, so trimming twice equals trimming once with the first
threshold. -/
theorem voc_trim_effective_once (v : Voc) (m1 m2 : Nat) :
    (v.trim m1).trimmed = true ∧ (v.trim m1).trim m2 = v.trim m1 :=
  ⟨Voc.trim_trimmed v m1,
    Voc.trim_of_trimmed (v.trim m1) m2 (Voc.trim_trimmed v m1)⟩

/-- Evaluation of a Python list comprehension whose body can raise: none as
soon as one element fails. -/
def mapMo {α β : Type} (f : α → Option β) : List α → Option (List β)
  | [] => some []
  | x :: xs =>
    match f x with
    | none => none
    | some y =>
      match mapMo f xs with
      | none => none
      | some ys => some (y :: ys)

/-- indexesFromSentence (src/chatbot.py lines 387-393): look each word up in
word2index and append EOS_token. A word absent from the vocabulary raises
KeyError, modelled by none. -/
def indexesFromSentence (voc : Voc) (sentence : List String) : Option (List Nat) :=
  (mapMo (fun word => dictLookup voc.word2index word) sentence).map
    (fun idxs => idxs ++ [EOS_token])

/-- The number of rows produced by itertools.zip_longest: the maximum length
among the sequences (0 when there are none). -/
def maxlen (l : List (List Nat)) : Nat := (l.map List.length).foldr max 0

/-- zeroPadding (lines 396-402): transpose the token lists into time-major
rows, padding every sequence to the longest length with fillvalue. -/
def zeroPadding (l : List (List Nat)) (fillvalue : Nat) : List (List Nat) :=
  (List.range (maxlen l)).map (fun t => l.map (fun seq => seq.getD t fillvalue))

/-- binaryMatrix (lines 405-414): 0 where the token equals PAD_token and 1
elsewhere. The value parameter exists in the source but the comparison is
against PAD_token, as in the code. -/
def binaryMatrix (l : List (List Nat)) (value : Nat) : List (List Nat) :=
  l.map (fun seq => seq.map (fun token => if token = PAD_token then 0 else 1))

/-- torch.BoolTensor applied to a 0/1 matrix: nonzero becomes true. -/
def boolTensor (m : List (List Nat)) : List (List Bool) :=
  m.map (fun row => row.map (fun x => x != 0))

/-- Python max() over a list of naturals: raises on an empty list. -/
def pyMax : List Nat → Option Nat
  | [] => none
  | x :: xs => some (xs.foldl max x)

/-- inputVar (lines 418-429): tokenize every sentence, record the lengths,
and zero-pad; returns (padded tensor, lengths). -/
def inputVar (l : List (List String)) (voc : Voc) :
    Option (List (List Nat) × List Nat) :=
  match mapMo (indexesFromSentence voc) l with
  | none => none
  | some indexes_batch =>
    some (zeroPadding indexes_batch PAD_token, indexes_batch.map List.length)

/-- outputVar (lines 433-446): tokenize, take the maximum target length,
zero-pad, and build the boolean mask; returns (padded tensor, mask,
max_target_len). -/
def outputVar (l : List (List String)) (voc : Voc) :
    Option (List (List Nat) × List (List Bool) × Nat) :=
  match mapMo (indexesFromSentence voc) l with
  | none => none
  | some indexes_batch =>
    match pyMax (indexes_batch.map List.length) with
    | none => none
    | some max_target_len =>
      let padList := zeroPadding indexes_batch PAD_token
      let mask := boolTensor (binaryMatrix padList PAD_token)
      some (padList, mask, max_target_len)

/-- The sort key of batch2TrainData: len(pair[0].split(" ")), the number of
words of the input sentence. -/
def inputWordCount (pair : List String × List String) : Nat := pair.1.length

/-- One step of the stable descending insertion modelling list.sort with
reverse=True: an element moves past exactly the elements with a strictly
smaller key, so elements with equal keys keep their original order. -/
def insertDescByKey (x : List String × List String) :
    List (List String × List String) → List (List String × List String)
  | [] => [x]
  | y :: ys =>
    if inputWordCount x < inputWordCount y then y :: insertDescByKey x ys
    else x :: y :: ys

/-- The stable descending sort performed in place by
pair_batch.sort(key=lambda x: len(x[0].split(" ")), reverse=True)
(line 459). -/
def sortPairs : List (List String × List String) → List (List String × List String)
  | [] => []
  | x :: xs => insertDescByKey x (sortPairs xs)

/-- batch2TrainData (lines 450-466). The first component is the returned
tuple (input tensor, lengths, target tensor, mask, max target length), or
none when a word lookup or the max over an empty batch raises. The second
component is the state of the caller's pair_batch list after the call: the
in-place sort reorders it before anything else happens. -/
def batch2TrainData (voc : Voc) (pair_batch : List (List String × List String)) :
    Option (List (List Nat) × List Nat × List (List Nat) × List (List Bool) × Nat) ×
      List (List String × List String) :=
  let sorted := sortPairs pair_batch
  let input_batch := sorted.map Prod.fst
  let output_batch := sorted.map Prod.snd
  let result :=
    match inputVar input_batch voc with
    | none => none
    | some (inp, lengths) =>
      match outputVar output_batch voc with
      | none => none
      | some (output, mask, max_target_len) =>
        some (inp, lengths, output, mask, max_target_len)
  (result, sorted)

/-- Column i of a time-major tensor: the entries of each row at index i. -/
def column (m : List (List Nat)) (i : Nat) : List Nat :=
  m.map (fun row => row.getD i PAD_token)

theorem mem_insertDescByKey (x z : List String × List String)
    (l : List (List String × List String)) :
    z ∈ insertDescByKey x l ↔ z = x ∨ z ∈ l := by
  induction l with
  | nil => simp [insertDescByKey]
  | cons y ys ih =>
    by_cases h : inputWordCount x < inputWordCount y
    · simp only [insertDescByKey, if_pos h, List.mem_cons, ih]
      tauto
    · simp only [insertDescByKey, if_neg h, List.mem_cons]

theorem insertDescByKey_perm (x : List String × List String)
    (l : List (List String × List String)) :
    (insertDescByKey x l).Perm (x :: l) := by
  induction l with
  | nil => simp [insertDescByKey]
  | cons y ys ih =>
    by_cases h : inputWordCount x < inputWordCount y
    · simp only [insertDescByKey, if_pos h]
      exact List.Perm.trans (List.Perm.cons y ih) (List.Perm.swap x y ys)
    · simp [insertDescByKey, if_neg h]

theorem sortPairs_perm (l : List (List String × List String)) :
    (sortPairs l).Perm l := by
  induction l with
  | nil => simp [sortPairs]
  | cons x xs ih =>
    exact List.Perm.trans (insertDescByKey_perm x (sortPairs xs)) (List.Perm.cons x ih)

theorem insertDescByKey_pairwise (x : List String × List String)
    (l : List (List String × List String))
    (h : l.Pairwise (fun a b => inputWordCount b ≤ inputWordCount a)) :
    (insertDescByKey x l).Pairwise (fun a b => inputWordCount b ≤ inputWordCount a) := by
  induction l with
  | nil => simp [insertDescByKey]
  | cons y ys ih =>
    rcases List.pairwise_cons.mp h with ⟨hy, hys⟩
    by_cases hlt : inputWordCount x < inputWordCount y
    · simp only [insertDescByKey, if_pos hlt]
      refine List.pairwise_cons.mpr ⟨?_, ih hys⟩
      intro z hz
      rcases (mem_insertDescByKey x z ys).mp hz with h1 | h1
      · subst h1; exact Nat.le_of_lt hlt
      · exact hy z h1
    · simp only [insertDescByKey, if_neg hlt]
      refine List.pairwise_cons.mpr ⟨?_, h⟩
      intro z hz
      rcases List.mem_cons.mp hz with h1 | h1
      · subst h1; exact Nat.le_of_not_lt hlt
      · exact Nat.le_trans (hy z h1) (Nat.le_of_not_lt hlt)

theorem sortPairs_pairwise (l : List (List String × List String)) :
    (sortPairs l).Pairwise (fun a b => inputWordCount b ≤ inputWordCount a) := by
  induction l with
  | nil => simp [sortPairs]
  | cons x xs ih => exact insertDescByKey_pairwise x (sortPairs xs) ih

/-- Counterexample to C2 as stated: on a successful call, batch2TrainData
leaves the caller's pair list reordered (the in-place sort is observable
after the call). -/
theorem batch2TrainData_mutates_caller_list :
    ((batch2TrainData (((((Voc.init "c").addWord "a").addWord "b").addWord "x").addWord "y")
        [(["a"], ["x"]), (["b", "b"], ["y"])]).1).isSome = true ∧
    (batch2TrainData (((((Voc.init "c").addWord "a").addWord "b").addWord "x").addWord "y")
        [(["a"], ["x"]), (["b", "b"], ["y"])]).2 ≠
      [(["a"], ["x"]), (["b", "b"], ["y"])] := by
  constructor
  · rfl
  · decide

/-- C2 amended: batch2TrainData reads but never writes the vocabulary, and
its returned tensors are a function of (vocabulary, pairs); however the
caller's pair list is not left in its original order: it is reordered in
place into a permutation of itself that is non-increasing in input word
count (the stable descending sort). -/
theorem batch2TrainData_sorts_caller_list (voc : Voc)
    (pair_batch : List (List String × List String)) :
    ((batch2TrainData voc pair_batch).2).Perm pair_batch ∧
    ((batch2TrainData voc pair_batch).2).Pairwise
      (fun a b => inputWordCount b ≤ inputWordCount a) :=
  ⟨sortPairs_perm pair_batch, sortPairs_pairwise pair_batch⟩

theorem mapMo_forall₂ {α β : Type} {f : α → Option β} :
    ∀ {l : List α} {ys : List β}, mapMo f l = some ys →
      List.Forall₂ (fun x y => f x = some y) l ys := by
  intro l
  induction l with
  | nil =>
    intro ys h
    simp only [mapMo, Option.some.injEq] at h
    subst h
    exact List.Forall₂.nil
  | cons x xs ih =>
    intro ys h
    simp only [mapMo] at h
    cases hfx : f x with
    | none => rw [hfx] at h; exact absurd h (by simp)
    | some y =>
      rw [hfx] at h
      cases hrec : mapMo f xs with
      | none => rw [hrec] at h; exact absurd h (by simp)
      | some ys0 =>
        rw [hrec] at h
        simp only [Option.some.injEq] at h
        subst h
        exact List.Forall₂.cons hfx (ih hrec)

theorem forall₂_mem_right {α β : Type} {R : α → β → Prop} :
    ∀ {l : List α} {ys : List β}, List.Forall₂ R l ys → ∀ y ∈ ys, ∃ x ∈ l, R x y := by
  intro l ys h
  induction h with
  | nil => intro y hy; simp at hy
  | cons hr _ ih =>
    intro y hy
    rcases List.mem_cons.mp hy with h1 | h1
    · subst h1; exact ⟨_, List.mem_cons_self _ _, hr⟩
    · rcases ih y h1 with ⟨x, hx, hRx⟩
      exact ⟨x, List.mem_cons_of_mem _ hx, hRx⟩

theorem map_eq_of_forall₂ {α β γ : Type} {R : α → β → Prop}
    {l : List α} {ys : List β} (h : List.Forall₂ R l ys)
    (f : α → γ) (g : β → γ) (hfg : ∀ x y, R x y → g y = f x) :
    ys.map g = l.map f := by
  induction h with
  | nil => rfl
  | cons hr _ ih => simp [ih, hfg _ _ hr]

theorem dictLookup_mem {α β : Type} [DecidableEq α] :
    ∀ {l : List (α × β)} {k : α} {v : β}, dictLookup l k = some v → (k, v) ∈ l := by
  intro l
  induction l with
  | nil => intro k v h; simp [dictLookup] at h
  | cons p rest ih =>
    intro k v h
    obtain ⟨k0, v0⟩ := p
    by_cases hk : k0 = k
    · simp only [dictLookup] at h
      rw [if_pos hk] at h
      injection h with h2
      subst hk
      subst h2
      exact List.mem_cons_self _ _
    · simp only [dictLookup, if_neg hk] at h
      exact List.mem_cons_of_mem _ (ih h)

theorem indexesFromSentence_some {voc : Voc} {s : List String} {ts : List Nat}
    (h : indexesFromSentence voc s = some ts) :
    ∃ idxs, mapMo (fun word => dictLookup voc.word2index word) s = some idxs ∧
      ts = idxs ++ [EOS_token] := by
  unfold indexesFromSentence at h
  cases hm : mapMo (fun word => dictLookup voc.word2index word) s with
  | none => rw [hm] at h; exact absurd h (by simp)
  | some idxs =>
    rw [hm] at h
    simp only [Option.map_some', Option.some.injEq] at h
    exact ⟨idxs, rfl, h.symm⟩

theorem indexesFromSentence_length {voc : Voc} {s : List String} {ts : List Nat}
    (h : indexesFromSentence voc s = some ts) : ts.length = s.length + 1 := by
  rcases indexesFromSentence_some h with ⟨idxs, hm, hts⟩
  have hlen := (mapMo_forall₂ hm).length_eq
  subst hts
  simp [hlen]

theorem indexesFromSentence_ne_pad {voc : Voc} {s : List String} {ts : List Nat}
    (hvoc : ∀ p ∈ voc.word2index, p.2 ≠ PAD_token)
    (h : indexesFromSentence voc s = some ts) : ∀ x ∈ ts, x ≠ PAD_token := by
  rcases indexesFromSentence_some h with ⟨idxs, hm, hts⟩
  subst hts
  intro x hx
  rcases List.mem_append.mp hx with h1 | h1
  · rcases forall₂_mem_right (mapMo_forall₂ hm) x h1 with ⟨w, _, hlook⟩
    exact hvoc (w, x) (dictLookup_mem hlook)
  · simp only [List.mem_singleton] at h1
    subst h1
    simp [EOS_token, PAD_token]

theorem le_foldr_max {x : Nat} : ∀ {l : List Nat}, x ∈ l → x ≤ l.foldr max 0 := by
  intro l
  induction l with
  | nil => intro h; simp at h
  | cons y ys ih =>
    intro h
    rcases List.mem_cons.mp h with h1 | h1
    · subst h1; exact Nat.le_max_left _ _
    · exact Nat.le_trans (ih h1) (Nat.le_max_right _ _)

theorem foldr_max_le {m : Nat} : ∀ {l : List Nat}, (∀ x ∈ l, x ≤ m) → l.foldr max 0 ≤ m := by
  intro l
  induction l with
  | nil => intro _; exact Nat.zero_le m
  | cons y ys ih =>
    intro h
    simp only [List.foldr_cons]
    exact Nat.max_le.mpr ⟨h y (List.mem_cons_self _ _), ih (fun x hx => h x (List.mem_cons_of_mem _ hx))⟩

theorem le_foldl_max_of_le : ∀ (xs : List Nat) (x z : Nat), z ≤ x → z ≤ xs.foldl max x := by
  intro xs
  induction xs with
  | nil => intro x z h; exact h
  | cons y ys ih =>
    intro x z h
    exact ih (max x y) z (Nat.le_trans h (Nat.le_max_left _ _))

theorem mem_le_foldl_max : ∀ (xs : List Nat) (x z : Nat), z ∈ xs → z ≤ xs.foldl max x := by
  intro xs
  induction xs with
  | nil => intro x z h; simp at h
  | cons y ys ih =>
    intro x z h
    rcases List.mem_cons.mp h with h1 | h1
    · subst h1
      exact le_foldl_max_of_le ys (max x z) z (Nat.le_max_right _ _)
    · exact ih (max x y) z h1

theorem foldl_max_mem : ∀ (xs : List Nat) (x : Nat), xs.foldl max x ∈ x :: xs := by
  intro xs
  induction xs with
  | nil => intro x; simp
  | cons y ys ih =>
    intro x
    have h := ih (max x y)
    rcases List.mem_cons.mp h with h1 | h1
    · rw [List.foldl_cons, h1]
      rcases max_choice x y with h2 | h2 <;> rw [h2] <;> simp
    · rw [List.foldl_cons]
      rcases List.mem_cons.mp h with h3 | h3
      · rw [h3]
        rcases max_choice x y with h2 | h2 <;> rw [h2] <;> simp
      · simp [List.mem_cons_of_mem, h3]

theorem pyMax_spec {l : List Nat} {m : Nat} (h : pyMax l = some m) :
    m ∈ l ∧ ∀ x ∈ l, x ≤ m := by
  cases l with
  | nil => simp [pyMax] at h
  | cons x xs =>
    simp only [pyMax, Option.some.injEq] at h
    subst h
    refine ⟨foldl_max_mem xs x, ?_⟩
    intro z hz
    rcases List.mem_cons.mp hz with h1 | h1
    · subst h1; exact le_foldl_max_of_le xs z z (Nat.le_refl z)
    · exact mem_le_foldl_max xs x z h1

theorem pyMax_eq_maxlen {tb : List (List Nat)} {m : Nat}
    (h : pyMax (tb.map List.length) = some m) : maxlen tb = m := by
  rcases pyMax_spec h with ⟨hmem, hle⟩
  unfold maxlen
  exact Nat.le_antisymm (foldr_max_le hle) (le_foldr_max hmem)

theorem length_le_maxlen {tb : List (List Nat)} {seq : List Nat} (h : seq ∈ tb) :
    seq.length ≤ maxlen tb :=
  le_foldr_max (List.mem_map_of_mem List.length h)

theorem zeroPadding_length (l : List (List Nat)) (f : Nat) :
    (zeroPadding l f).length = maxlen l := by
  simp [zeroPadding]

theorem zeroPadding_get? (l : List (List Nat)) (f t : Nat) (ht : t < maxlen l) :
    (zeroPadding l f).get? t = some (l.map (fun seq => seq.getD t f)) := by
  unfold zeroPadding
  rw [List.get?_map, List.get?_range ht]
  rfl

theorem range_map_const (d : Nat) : ∀ n : Nat,
    (List.range n).map (fun _ => d) = List.replicate n d := by
  intro n
  induction n with
  | zero => rfl
  | succ m ih =>
    rw [List.range_succ, List.map_append, ih, List.replicate_succ']
    rfl

theorem range_map_getD (d : Nat) :
    ∀ (xs : List Nat) (n : Nat), xs.length ≤ n →
      (List.range n).map (fun t => xs.getD t d) = xs ++ List.replicate (n - xs.length) d := by
  intro xs
  induction xs with
  | nil =>
    intro n _
    simp only [List.nil_append, List.length_nil, Nat.sub_zero]
    calc (List.range n).map (fun t => ([] : List Nat).getD t d)
        = (List.range n).map (fun _ => d) := by
          apply List.map_congr_left
          intro t _
          simp [List.getD]
      _ = List.replicate n d := range_map_const d n
  | cons x xs ih =>
    intro n hn
    cases n with
    | zero => simp at hn
    | succ m =>
      have hm : xs.length ≤ m := by simpa using hn
      rw [List.range_succ_eq_map, List.map_cons, List.map_map]
      have h0 : (x :: xs).getD 0 d = x := rfl
      rw [h0]
      have hcomp : ((fun t => (x :: xs).getD t d) ∘ Nat.succ) = fun t => xs.getD t d := by
        funext t
        simp [Function.comp, List.getD_cons_succ]
      rw [hcomp, ih m hm]
      simp [Nat.succ_sub_succ]

theorem getD_mem_of_lt {α : Type} {l : List α} {i : Nat} (d : α) (hi : i < l.length) :
    l.getD i d ∈ l := by
  rw [List.getD_eq_get?]
  cases h : l.get? i with
  | none => exact absurd (List.get?_eq_none.mp h) (Nat.not_le_of_lt hi)
  | some a => simpa using List.get?_mem h

theorem column_zeroPadding (l : List (List Nat)) (i : Nat) (hi : i < l.length) :
    column (zeroPadding l PAD_token) i =
      l.getD i [] ++ List.replicate (maxlen l - (l.getD i []).length) PAD_token := by
  unfold column zeroPadding
  rw [List.map_map]
  have hseq : ∀ t, ((fun row => row.getD i PAD_token) ∘
      (fun t => l.map (fun seq => seq.getD t PAD_token))) t =
      (l.getD i []).getD t PAD_token := by
    intro t
    simp only [Function.comp]
    rcases List.get?_eq_some.mpr ⟨hi, rfl⟩ with _
    have h1 : (l.map (fun seq => seq.getD t PAD_token)).get? i =
        (l.get? i).map (fun seq => seq.getD t PAD_token) := List.get?_map _ _ _
    have h2 : l.get? i = some (l.getD i []) := by
      rw [List.getD_eq_get?]
      cases h3 : l.get? i with
      | none => exact absurd (List.get?_eq_none.mp h3) (Nat.not_le_of_lt hi)
      | some a => rfl
    rw [List.getD_eq_get?, h1, h2]
    rfl
  calc (List.range (maxlen l)).map ((fun row => row.getD i PAD_token) ∘
        (fun t => l.map (fun seq => seq.getD t PAD_token)))
      = (List.range (maxlen l)).map (fun t => (l.getD i []).getD t PAD_token) :=
        List.map_congr_left (fun t _ => hseq t)
    _ = l.getD i [] ++ List.replicate (maxlen l - (l.getD i []).length) PAD_token :=
        range_map_getD PAD_token (l.getD i []) (maxlen l)
          (length_le_maxlen (getD_mem_of_lt [] hi))

theorem get?_eq_some_getD {α : Type} {l : List α} {i : Nat} (d : α) (hi : i < l.length) :
    l.get? i = some (l.getD i d) := by
  rw [List.getD_eq_get?]
  cases h : l.get? i with
  | none => exact absurd (List.get?_eq_none.mp h) (Nat.not_le_of_lt hi)
  | some a => rfl

theorem getD_map_of_lt {α β : Type} (f : α → β) (l : List α) (i : Nat) (d : α) (db : β)
    (hi : i < l.length) : (l.map f).getD i db = f (l.getD i d) := by
  rw [List.getD_eq_get?, List.get?_map, get?_eq_some_getD d hi]
  rfl

theorem getD_replicate_self {α : Type} (k j : Nat) (a : α) :
    (List.replicate k a).getD j a = a := by
  rw [List.getD_eq_get?]
  cases h : (List.replicate k a).get? j with
  | none => rfl
  | some b =>
    have hb : b ∈ List.replicate k a := List.get?_mem h
    rw [List.eq_of_mem_replicate hb]
    rfl

theorem inputVar_some {l : List (List String)} {voc : Voc}
    {inp : List (List Nat)} {lengths : List Nat}
    (h : inputVar l voc = some (inp, lengths)) :
    ∃ tb, mapMo (indexesFromSentence voc) l = some tb ∧
      inp = zeroPadding tb PAD_token ∧ lengths = tb.map List.length := by
  unfold inputVar at h
  cases hm : mapMo (indexesFromSentence voc) l with
  | none => rw [hm] at h; exact absurd h (by simp)
  | some tb =>
    rw [hm] at h
    simp only [Option.some.injEq, Prod.mk.injEq] at h
    exact ⟨tb, rfl, h.1.symm, h.2.symm⟩

theorem outputVar_some {l : List (List String)} {voc : Voc}
    {out : List (List Nat)} {mask : List (List Bool)} {mtl : Nat}
    (h : outputVar l voc = some (out, mask, mtl)) :
    ∃ tb, mapMo (indexesFromSentence voc) l = some tb ∧
      pyMax (tb.map List.length) = some mtl ∧
      out = zeroPadding tb PAD_token ∧
      mask = boolTensor (binaryMatrix (zeroPadding tb PAD_token) PAD_token) := by
  unfold outputVar at h
  split at h
  next => exact absurd h (by simp)
  next tb hm =>
    split at h
    next => exact absurd h (by simp)
    next m hp =>
      simp only [Option.some.injEq, Prod.mk.injEq] at h
      obtain ⟨h1, h2, h3⟩ := h
      subst h3
      exact ⟨tb, hm, hp, h1.symm, h2.symm⟩

theorem batch2TrainData_some {voc : Voc} {pb : List (List String × List String)}
    {inp : List (List Nat)} {lengths : List Nat} {out : List (List Nat)}
    {mask : List (List Bool)} {mtl : Nat}
    (h : (batch2TrainData voc pb).1 = some (inp, lengths, out, mask, mtl)) :
    inputVar ((sortPairs pb).map Prod.fst) voc = some (inp, lengths) ∧
    outputVar ((sortPairs pb).map Prod.snd) voc = some (out, mask, mtl) := by
  unfold batch2TrainData at h
  simp only at h
  cases hin : inputVar ((sortPairs pb).map Prod.fst) voc with
  | none => rw [hin] at h; exact absurd h (by simp)
  | some p =>
    obtain ⟨inp0, lengths0⟩ := p
    rw [hin] at h
    cases hout : outputVar ((sortPairs pb).map Prod.snd) voc with
    | none => rw [hout] at h; exact absurd h (by simp)
    | some q =>
      obtain ⟨out0, mask0, mtl0⟩ := q
      rw [hout] at h
      simp only [Option.some.injEq, Prod.mk.injEq] at h
      obtain ⟨h1, h2, h3, h4, h5⟩ := h
      subst h1; subst h2; subst h3; subst h4; subst h5
      exact ⟨rfl, rfl⟩

theorem mask_get? (padList : List (List Nat)) (t : Nat) :
    (boolTensor (binaryMatrix padList PAD_token)).get? t =
      (padList.get? t).map (fun row => row.map (fun tok => tok != PAD_token)) := by
  unfold boolTensor binaryMatrix
  rw [List.get?_map, List.get?_map]
  cases padList.get? t with
  | none => rfl
  | some row =>
    simp only [Option.map_some', Option.some.injEq, List.map_map]
    apply List.map_congr_left
    intro tok _
    by_cases htok : tok = PAD_token
    · simp [htok, Function.comp]
    · simp only [PAD_token] at htok
      simp [htok, Function.comp, PAD_token, bne_iff_ne]

/-- C1: for a batch successfully produced by batch2TrainData (which requires
a non-empty pair list, since max() over an empty batch raises), every mask
row at a timestep t < max_target_len contains at least one true entry, so
every maskNLLLoss call made by train gets a mask with a true position and
the masked mean is over a non-empty selection. The vocabulary hypothesis
(no word is mapped to the PAD index) holds for every reachable Voc by
voc_reserved_indices_invariant. -/
theorem mask_rows_have_real_token (voc : Voc) (pb : List (List String × List String))
    (hvoc : ∀ p ∈ voc.word2index, p.2 ≠ PAD_token)
    (inp : List (List Nat)) (lengths : List Nat) (out : List (List Nat))
    (mask : List (List Bool)) (mtl : Nat)
    (hres : (batch2TrainData voc pb).1 = some (inp, lengths, out, mask, mtl))
    (t : Nat) (ht : t < mtl) :
    ∃ row, mask.get? t = some row ∧ true ∈ row := by
  obtain ⟨_, hout⟩ := batch2TrainData_some hres
  obtain ⟨tb, htb, hmax, hout_eq, hmask⟩ := outputVar_some hout
  have hml : maxlen tb = mtl := pyMax_eq_maxlen hmax
  have hrow : (zeroPadding tb PAD_token).get? t =
      some (tb.map (fun seq => seq.getD t PAD_token)) :=
    zeroPadding_get? tb PAD_token t (by rw [hml]; exact ht)
  subst hmask
  rw [mask_get?, hrow]
  simp only [Option.map_some']
  refine ⟨_, rfl, ?_⟩
  obtain ⟨hmem, _⟩ := pyMax_spec hmax
  obtain ⟨seq, hseq, hlen⟩ := List.mem_map.mp hmem
  have htlt : t < seq.length := by rw [hlen]; exact ht
  have htok_mem : seq.getD t PAD_token ∈ seq := getD_mem_of_lt PAD_token htlt
  obtain ⟨s, _, hf⟩ := forall₂_mem_right (mapMo_forall₂ htb) seq hseq
  have hne : seq.getD t PAD_token ≠ PAD_token :=
    indexesFromSentence_ne_pad hvoc hf _ htok_mem
  rw [List.map_map]
  refine List.mem_map.mpr ⟨seq, hseq, ?_⟩
  exact bne_iff_ne.mpr hne

/-- A small concrete vocabulary used by the witnesses. -/
def vocW : Voc := ((Voc.init "corpus").addSentence ["hello"]).addSentence ["hi", "there"]

/-- Witness for C1 on a concrete one-pair batch. -/
theorem mask_rows_have_real_token_witness :
    ∃ row, ([[true], [true], [true]] : List (List Bool)).get? 0 = some row ∧ true ∈ row :=
  mask_rows_have_real_token vocW [(["hello"], ["hi", "there"])] (by decide)
    [[3], [2]] [2] [[4], [5], [2]] [[true], [true], [true]] 3 rfl 0 (by decide)

/-- C4: in every batch produced by batch2TrainData, the mask is true at
position (t, i) exactly when the target tensor at (t, i) is not the PAD
token. -/
theorem mask_true_iff_target_not_pad (voc : Voc) (pb : List (List String × List String))
    (inp : List (List Nat)) (lengths : List Nat) (out : List (List Nat))
    (mask : List (List Bool)) (mtl : Nat)
    (hres : (batch2TrainData voc pb).1 = some (inp, lengths, out, mask, mtl))
    (t i : Nat) (mrow : List Bool) (trow : List Nat) (b : Bool) (tok : Nat)
    (hm : mask.get? t = some mrow) (ho : out.get? t = some trow)
    (hb : mrow.get? i = some b) (htok : trow.get? i = some tok) :
    b = true ↔ tok ≠ PAD_token := by
  obtain ⟨_, hout⟩ := batch2TrainData_some hres
  obtain ⟨tb, _, _, hout_eq, hmask⟩ := outputVar_some hout
  subst hmask
  rw [mask_get?, ← hout_eq, ho] at hm
  simp only [Option.map_some', Option.some.injEq] at hm
  subst hm
  rw [List.get?_map, htok] at hb
  simp only [Option.map_some', Option.some.injEq] at hb
  subst hb
  simp [bne_iff_ne]

/-- Witness for C4 at position (0, 0) of a concrete batch. -/
theorem mask_true_iff_target_not_pad_witness :
    true = true ↔ (4 : Nat) ≠ PAD_token :=
  mask_true_iff_target_not_pad vocW [(["hello"], ["hi", "there"])]
    [[3], [2]] [2] [[4], [5], [2]] [[true], [true], [true]] 3 rfl
    0 0 [true] [4] true 4 rfl rfl rfl rfl

/-- C3: in every batch produced by batch2TrainData, input_lengths is
non-increasing; input_lengths[i] is the number of real (non-PAD) tokens of
sentence i including the appended EOS token (every entry of column i below
input_lengths[i] is a real token and the count of non-PAD entries of the
column equals input_lengths[i]); and every entry of column i at or beyond
input_lengths[i] is the PAD token. -/
theorem input_lengths_sorted_and_padded (voc : Voc) (pb : List (List String × List String))
    (hvoc : ∀ p ∈ voc.word2index, p.2 ≠ PAD_token)
    (inp : List (List Nat)) (lengths : List Nat) (out : List (List Nat))
    (mask : List (List Bool)) (mtl : Nat)
    (hres : (batch2TrainData voc pb).1 = some (inp, lengths, out, mask, mtl)) :
    lengths.Pairwise (fun a b => b ≤ a) ∧
    ∀ i, i < lengths.length →
      (∀ t, t < lengths.getD i 0 → (column inp i).getD t PAD_token ≠ PAD_token) ∧
      (∀ t, lengths.getD i 0 ≤ t → (column inp i).getD t PAD_token = PAD_token) ∧
      (column inp i).countP (fun x => x != PAD_token) = lengths.getD i 0 := by
  obtain ⟨hin, _⟩ := batch2TrainData_some hres
  obtain ⟨tb, htb, hinp, hlengths⟩ := inputVar_some hin
  have hfa := mapMo_forall₂ htb
  have hmapeq : tb.map List.length =
      ((sortPairs pb).map Prod.fst).map (fun s => s.length + 1) :=
    map_eq_of_forall₂ hfa (fun s => s.length + 1) List.length
      (fun s ts hr => indexesFromSentence_length hr)
  constructor
  · rw [hlengths, hmapeq, List.map_map, List.pairwise_map]
    refine (sortPairs_pairwise pb).imp ?_
    intro a b hab
    simpa [Function.comp] using Nat.succ_le_succ hab
  · intro i hi
    have hlen_tb : i < tb.length := by
      rw [hlengths, List.length_map] at hi
      exact hi
    have hseq_mem : tb.getD i [] ∈ tb := getD_mem_of_lt [] hlen_tb
    obtain ⟨s, _, hf⟩ := forall₂_mem_right hfa (tb.getD i []) hseq_mem
    have hnp : ∀ x ∈ tb.getD i [], x ≠ PAD_token :=
      indexesFromSentence_ne_pad hvoc hf
    have hcol : column inp i =
        tb.getD i [] ++ List.replicate (maxlen tb - (tb.getD i []).length) PAD_token := by
      rw [hinp]
      exact column_zeroPadding tb i hlen_tb
    have hlenD : lengths.getD i 0 = (tb.getD i []).length := by
      rw [hlengths]
      exact getD_map_of_lt List.length tb i [] 0 hlen_tb
    refine ⟨?_, ?_, ?_⟩
    · intro t htl
      rw [hlenD] at htl
      rw [hcol, List.getD_append _ _ _ _ htl]
      exact hnp _ (getD_mem_of_lt PAD_token htl)
    · intro t htl
      rw [hlenD] at htl
      rw [hcol, List.getD_append_right _ _ _ _ htl]
      exact getD_replicate_self _ _ _
    · rw [hcol, List.countP_append]
      have h1 : (tb.getD i []).countP (fun x => x != PAD_token) =
          (tb.getD i []).length := by
        rw [List.countP_eq_length]
        intro a ha
        simpa [bne_iff_ne] using hnp a ha
      have h2 : (List.replicate (maxlen tb - (tb.getD i []).length) PAD_token).countP
          (fun x => x != PAD_token) = 0 := by
        rw [List.countP_eq_zero]
        intro a ha
        rw [List.eq_of_mem_replicate ha]
        simp
      rw [h1, h2, hlenD, Nat.add_zero]

/-- Witness for C3 on a concrete one-pair batch. -/
theorem input_lengths_sorted_and_padded_witness :
    ([2] : List Nat).Pairwise (fun a b => b ≤ a) ∧
    ∀ i, i < ([2] : List Nat).length →
      (∀ t, t < ([2] : List Nat).getD i 0 →
        (column [[3], [2]] i).getD t PAD_token ≠ PAD_token) ∧
      (∀ t, ([2] : List Nat).getD i 0 ≤ t →
        (column [[3], [2]] i).getD t PAD_token = PAD_token) ∧
      (column [[3], [2]] i).countP (fun x => x != PAD_token) = ([2] : List Nat).getD i 0 :=
  input_lengths_sorted_and_padded vocW [(["hello"], ["hi", "there"])] (by decide)
    [[3], [2]] [2] [[4], [5], [2]] [[true], [true], [true]] 3 rfl

/-- The index returned for one batch element by torch.topk(1) and torch.max
over the vocabulary dimension: the first position holding the maximum. -/
def argmaxIdx : List ℚ → Nat
  | [] => 0
  | [_] => 0
  | x :: y :: rest =>
    let j := argmaxIdx (y :: rest)
    if x < (y :: rest).getD j 0 then j + 1 else 0

/-- The maximum value returned by torch.max over the vocabulary dimension. -/
def maxVal : List ℚ → ℚ
  | [] => 0
  | x :: xs => xs.foldl max x

/-- The teacher-forcing branch of the decoding loop of train (src/chatbot.py
lines 762-773), recording the decoder input fed at each timestep; the next
input is the current target row, and the loop never touches the random
number generator. The decoder is abstract: it maps a (1 x B) input row and
a hidden state to a (B x V) distribution and a new hidden state. -/
def teacherForcingSteps {H : Type} (decoder : List Nat → H → List (List ℚ) × H)
    (target_variable : List (List Nat)) :
    Nat → Nat → List Nat → H → List (List Nat)
  | 0, _, _, _ => []
  | fuel + 1, t, decoder_input, decoder_hidden =>
    let step := decoder decoder_input decoder_hidden
    let next := target_variable.getD t []
    decoder_input :: teacherForcingSteps decoder target_variable fuel (t + 1) next step.2

/-- The free-running branch of the decoding loop of train (lines 774-787):
the next input row collects topi[i][0] for i in range(batch_size), i.e. the
argmax of each batch element's distribution; the random number generator is
never touched inside the loop. -/
def freeRunningSteps {H : Type} (decoder : List Nat → H → List (List ℚ) × H)
    (batch_size : Nat) :
    Nat → List Nat → H → List (List Nat)
  | 0, _, _ => []
  | fuel + 1, decoder_input, decoder_hidden =>
    let step := decoder decoder_input decoder_hidden
    let next := (List.range batch_size).map (fun i => argmaxIdx (step.1.getD i []))
    decoder_input :: freeRunningSteps decoder batch_size fuel next step.2

/-- The decoding phase of train (lines 751-787): initialize the decoder
input to a row of SOS tokens, draw random.random() exactly once from the
stream at the current counter, compare it with teacher_forcing_ratio, and
run whichever loop was selected for all max_target_len timesteps. Returns
(use_teacher_forcing, the counter after the call, the decoder inputs fed at
each timestep). -/
def trainDecode {H : Type} (randomStream : Nat → ℚ) (rngCounter : Nat)
    (teacher_forcing_ratio : ℚ) (decoder : List Nat → H → List (List ℚ) × H)
    (decoder_hidden : H) (batch_size : Nat) (target_variable : List (List Nat))
    (max_target_len : Nat) : Bool × Nat × List (List Nat) :=
  let decoder_input := List.replicate batch_size SOS_token
  let use_teacher_forcing :=
    if randomStream rngCounter < teacher_forcing_ratio then true else false
  let rngCounter2 := rngCounter + 1
  let inputs :=
    if use_teacher_forcing then
      teacherForcingSteps decoder target_variable max_target_len 0 decoder_input decoder_hidden
    else
      freeRunningSteps decoder batch_size max_target_len decoder_input decoder_hidden
  (use_teacher_forcing, rngCounter2, inputs)

theorem teacherForcingSteps_length {H : Type} (decoder : List Nat → H → List (List ℚ) × H)
    (tv : List (List Nat)) :
    ∀ (fuel t : Nat) (di : List Nat) (dh : H),
      (teacherForcingSteps decoder tv fuel t di dh).length = fuel := by
  intro fuel
  induction fuel with
  | zero => intro t di dh; rfl
  | succ n ih =>
    intro t di dh
    simp only [teacherForcingSteps, List.length_cons]
    rw [ih]

theorem freeRunningSteps_length {H : Type} (decoder : List Nat → H → List (List ℚ) × H)
    (B : Nat) :
    ∀ (fuel : Nat) (di : List Nat) (dh : H),
      (freeRunningSteps decoder B fuel di dh).length = fuel := by
  intro fuel
  induction fuel with
  | zero => intro di dh; rfl
  | succ n ih =>
    intro di dh
    simp only [freeRunningSteps, List.length_cons]
    rw [ih]

theorem teacherForcingSteps_getD {H : Type} (decoder : List Nat → H → List (List ℚ) × H)
    (tv : List (List Nat)) :
    ∀ (fuel t k : Nat) (di : List Nat) (dh : H), k + 1 < fuel →
      (teacherForcingSteps decoder tv fuel t di dh).getD (k + 1) [] =
        tv.getD (t + k) [] := by
  intro fuel
  induction fuel with
  | zero => intro t k di dh h; exact absurd h (by omega)
  | succ n ih =>
    intro t k di dh h
    simp only [teacherForcingSteps]
    cases k with
    | zero =>
      rw [List.getD_cons_succ]
      cases n with
      | zero => exact absurd h (by omega)
      | succ n2 =>
        simp only [teacherForcingSteps, List.getD_cons_zero, Nat.add_zero]
    | succ k2 =>
      rw [List.getD_cons_succ]
      have h2 : k2 + 1 < n := by omega
      rw [ih (t + 1) k2 _ _ h2]
      congr 1
      omega

/-- C5: in every invocation of train, the teacher-forcing mode is decided by
a single draw from the random stream (the counter advances by exactly 1, for
every max_target_len) against the configured ratio before the decoding loop;
the decision is constant across the iteration: when teacher forcing is on,
every timestep after the first is fed the previous target row, and neither
loop reads the stream again. -/
theorem train_single_bernoulli_draw {H : Type} (randomStream : Nat → ℚ) (c : Nat)
    (ratio : ℚ) (decoder : List Nat → H → List (List ℚ) × H) (h0 : H) (B : Nat)
    (tv : List (List Nat)) (mtl : Nat) :
    (trainDecode randomStream c ratio decoder h0 B tv mtl).2.1 = c + 1 ∧
    ((trainDecode randomStream c ratio decoder h0 B tv mtl).1 = true ↔
      randomStream c < ratio) ∧
    (trainDecode randomStream c ratio decoder h0 B tv mtl).2.2.length = mtl ∧
    ((trainDecode randomStream c ratio decoder h0 B tv mtl).1 = true →
      ∀ t, t + 1 < mtl →
        (trainDecode randomStream c ratio decoder h0 B tv mtl).2.2.getD (t + 1) [] =
          tv.getD t []) := by
  refine ⟨?_, ?_, ?_, ?_⟩
  · by_cases hr : randomStream c < ratio <;> simp [trainDecode, hr]
  · by_cases hr : randomStream c < ratio <;> simp [trainDecode, hr]
  · by_cases hr : randomStream c < ratio <;>
      simp [trainDecode, hr, teacherForcingSteps_length, freeRunningSteps_length]
  · intro htf t ht
    by_cases hr : randomStream c < ratio
    · have h := teacherForcingSteps_getD decoder tv mtl 0 t
        (List.replicate B SOS_token) h0 ht
      simpa [trainDecode, hr] using h
    · exfalso
      simp [trainDecode, hr] at htf

/-- Witness for C5: with a stream always drawing 0 and ratio 1, teacher
forcing is on and the input fed at timestep 1 is target row 0. -/
theorem train_single_bernoulli_draw_witness :
    (trainDecode (fun _ => (0 : ℚ)) 0 1 (fun _ _ => (([] : List (List ℚ)), ())) () 1
        [[5], [6], [7]] 3).2.2.getD 1 [] = ([[5], [6], [7]] : List (List Nat)).getD 0 [] :=
  (train_single_bernoulli_draw (fun _ => (0 : ℚ)) 0 1
      (fun _ _ => (([] : List (List ℚ)), ())) () 1 [[5], [6], [7]] 3).2.2.2
    (by decide) 0 (by decide)

/-- torch.masked_select: the entries of xs at the true positions of mask. -/
def maskedSelect (xs : List ℚ) (mask : List Bool) : List ℚ :=
  ((xs.zip mask).filter (fun p => p.2)).map Prod.fst

/-- mask.sum() on a boolean tensor: the number of true entries. -/
def maskSum (mask : List Bool) : Nat :=
  (mask.map (fun b => if b then 1 else 0)).sum

/-- .mean() of a one-dimensional tensor: sum divided by element count. -/
def listMean (xs : List ℚ) : ℚ := xs.sum / (xs.length : ℚ)

/-- crossEntropy = -log(gather(inp, 1, target).squeeze(1)) of maskNLLLoss
(line 710): element j is -log of inp[j][target[j]]. The logarithm is
transcendental, so the map x to -log x is abstracted as the parameter
neglog. -/
def gatherNLL (neglog : ℚ → ℚ) (inp : List (List ℚ)) (target : List Nat) : List ℚ :=
  (inp.zip target).map (fun p => neglog (p.1.getD p.2 0))

/-- maskNLLLoss (lines 700-713): nTotal = mask.sum(); loss is the mean of
the cross-entropy entries selected by the mask; returns (loss, nTotal). -/
def maskNLLLoss (neglog : ℚ → ℚ) (inp : List (List ℚ)) (target : List Nat)
    (mask : List Bool) : ℚ × Nat :=
  let nTotal := maskSum mask
  let crossEntropy := gatherNLL neglog inp target
  let loss := listMean (maskedSelect crossEntropy mask)
  (loss, nTotal)

/-- The loss accumulation of train (lines 744-787): the loop over timesteps
accumulates loss += mask_loss, print_losses.append(mask_loss * nTotal) and
n_totals += nTotal, with the decoder output distribution at timestep t
abstracted as outputs t (identical in both branches of the loop); returns
(loss, print_losses, n_totals). -/
def trainLossState (neglog : ℚ → ℚ) (outputs : Nat → List (List ℚ))
    (target_variable : List (List Nat)) (mask : List (List Bool))
    (max_target_len : Nat) : ℚ × List ℚ × Nat :=
  (List.range max_target_len).foldl
    (fun acc t =>
      let r := maskNLLLoss neglog (outputs t) (target_variable.getD t []) (mask.getD t [])
      (acc.1 + r.1, acc.2.1 ++ [r.1 * (r.2 : ℚ)], acc.2.2 + r.2))
    (0, [], 0)

/-- The value returned by train (line 800): sum(print_losses) / n_totals. -/
def trainReturn (neglog : ℚ → ℚ) (outputs : Nat → List (List ℚ))
    (target_variable : List (List Nat)) (mask : List (List Bool))
    (max_target_len : Nat) : ℚ :=
  ((trainLossState neglog outputs target_variable mask max_target_len).2.1).sum /
    (((trainLossState neglog outputs target_variable mask max_target_len).2.2 : Nat) : ℚ)

theorem maskedSelect_length : ∀ (mask : List Bool) (xs : List ℚ),
    mask.length ≤ xs.length → (maskedSelect xs mask).length = maskSum mask := by
  intro mask
  induction mask with
  | nil =>
    intro xs _
    simp [maskedSelect, maskSum, List.zip_nil_right]
  | cons b bs ih =>
    intro xs h
    cases xs with
    | nil => simp at h
    | cons x xs2 =>
      have h2 : bs.length ≤ xs2.length := by simpa using h
      have ih2 := ih xs2 h2
      cases b <;>
        simp [maskedSelect, maskSum, List.filter_cons] at ih2 ⊢ <;>
        omega

theorem maskNLLLoss_times_count (neglog : ℚ → ℚ) (inp : List (List ℚ)) (target : List Nat)
    (mask : List Bool)
    (hlen : mask.length ≤ (gatherNLL neglog inp target).length)
    (hpos : 0 < maskSum mask) :
    (maskNLLLoss neglog inp target mask).1 * ((maskNLLLoss neglog inp target mask).2 : ℚ) =
      (maskedSelect (gatherNLL neglog inp target) mask).sum := by
  unfold maskNLLLoss listMean
  simp only
  rw [maskedSelect_length mask _ hlen]
  have hne : ((maskSum mask : Nat) : ℚ) ≠ 0 := by
    have := Nat.pos_iff_ne_zero.mp hpos
    exact_mod_cast this
  exact div_mul_cancel₀ _ hne

theorem trainLossState_spec (neglog : ℚ → ℚ) (outputs : Nat → List (List ℚ))
    (tv : List (List Nat)) (mask : List (List Bool)) :
    ∀ n, trainLossState neglog outputs tv mask n =
      (((List.range n).map (fun t =>
          (maskNLLLoss neglog (outputs t) (tv.getD t []) (mask.getD t [])).1)).sum,
       (List.range n).map (fun t =>
          (maskNLLLoss neglog (outputs t) (tv.getD t []) (mask.getD t [])).1 *
            ((maskNLLLoss neglog (outputs t) (tv.getD t []) (mask.getD t [])).2 : ℚ)),
       ((List.range n).map (fun t =>
          (maskNLLLoss neglog (outputs t) (tv.getD t []) (mask.getD t [])).2)).sum) := by
  intro n
  induction n with
  | zero => simp [trainLossState]
  | succ m ih =>
    unfold trainLossState at ih ⊢
    rw [List.range_succ, List.foldl_append, ih]
    simp [List.map_append, List.sum_append]

/-- C6: the value train returns is the loss normalized by the total
masked-token count: sum(print_losses) / n_totals equals the total
cross-entropy over all mask-true positions of all timesteps divided by the
total number of mask-true positions (given that each timestep's mask length
is within the batch and has at least one true entry), not the loss divided
by the number of timesteps or by the batch size. -/
theorem train_returns_per_token_average (neglog : ℚ → ℚ)
    (outputs : Nat → List (List ℚ)) (tv : List (List Nat)) (mask : List (List Bool))
    (mtl : Nat)
    (hlen : ∀ t, t < mtl →
      (mask.getD t []).length ≤ (gatherNLL neglog (outputs t) (tv.getD t [])).length)
    (hpos : ∀ t, t < mtl → 0 < maskSum (mask.getD t [])) :
    trainReturn neglog outputs tv mask mtl =
      ((List.range mtl).map (fun t =>
          (maskedSelect (gatherNLL neglog (outputs t) (tv.getD t []))
            (mask.getD t [])).sum)).sum /
        (((List.range mtl).map (fun t => maskSum (mask.getD t []))).sum : ℚ) := by
  unfold trainReturn
  rw [trainLossState_spec]
  simp only
  have hnum : (List.range mtl).map (fun t =>
      (maskNLLLoss neglog (outputs t) (tv.getD t []) (mask.getD t [])).1 *
        ((maskNLLLoss neglog (outputs t) (tv.getD t []) (mask.getD t [])).2 : ℚ)) =
      (List.range mtl).map (fun t =>
        (maskedSelect (gatherNLL neglog (outputs t) (tv.getD t []))
          (mask.getD t [])).sum) := by
    apply List.map_congr_left
    intro t htmem
    have ht : t < mtl := List.mem_range.mp htmem
    exact maskNLLLoss_times_count neglog (outputs t) (tv.getD t []) (mask.getD t [])
      (hlen t ht) (hpos t ht)
  have hden : (List.range mtl).map (fun t =>
      (maskNLLLoss neglog (outputs t) (tv.getD t []) (mask.getD t [])).2) =
      (List.range mtl).map (fun t => maskSum (mask.getD t [])) := by
    apply List.map_congr_left
    intro t _
    rfl
  rw [hnum, hden]

/-- Witness for C6 on a one-timestep, one-element batch. -/
theorem train_returns_per_token_average_witness :
    trainReturn (fun x => x) (fun _ => [[1, 2]]) [[1]] [[true]] 1 =
      ((List.range 1).map (fun t =>
          (maskedSelect (gatherNLL (fun x => x) [[1, 2]]
              (([[1]] : List (List Nat)).getD t []))
            (([[true]] : List (List Bool)).getD t [])).sum)).sum /
        (((List.range 1).map (fun t =>
            maskSum (([[true]] : List (List Bool)).getD t []))).sum : ℚ) :=
  train_returns_per_token_average (fun x => x) (fun _ => [[1, 2]]) [[1]] [[true]] 1
    (by decide) (by decide)

/-- The decoding loop of GreedySearchDecoder.forward (lines 889-899): at
each of the max_length iterations, run one decoder step, take the max
softmax score and its token via torch.max over the vocabulary dimension,
append both to the output sequences, and feed the chosen token back as the
next input. There is no check for the end-of-sequence token: the loop body
is the same whatever token is produced. -/
def greedyDecodeLoop {E H : Type} (decoder : Nat → H → E → List ℚ × H)
    (encoder_outputs : E) :
    Nat → Nat → H → List Nat × List ℚ
  | 0, _, _ => ([], [])
  | fuel + 1, decoder_input, decoder_hidden =>
    let step := decoder decoder_input decoder_hidden encoder_outputs
    let token := argmaxIdx step.1
    let score := maxVal step.1
    let rest := greedyDecodeLoop decoder encoder_outputs fuel token step.2
    (token :: rest.1, score :: rest.2)

/-- GreedySearchDecoder.forward (lines 879-901): run the encoder once,
truncate its final hidden state for the decoder, start from SOS_token, and
run the decoding loop for exactly max_length steps. The encoder, the hidden
truncation encoder_hidden[:decoder.n_layers] and the one-step decoder are
abstract functions over abstract encoder-output and hidden types. -/
def greedySearchForward {E H : Type} (encoder : List Nat → Nat → E × H)
    (truncHidden : H → H) (decoder : Nat → H → E → List ℚ × H)
    (input_seq : List Nat) (input_length : Nat) (max_length : Nat) :
    List Nat × List ℚ :=
  let enc := encoder input_seq input_length
  let decoder_hidden := truncHidden enc.2
  greedyDecodeLoop decoder enc.1 max_length SOS_token decoder_hidden

theorem greedyDecodeLoop_length {E H : Type} (decoder : Nat → H → E → List ℚ × H)
    (eo : E) : ∀ (fuel di : Nat) (dh : H),
      (greedyDecodeLoop decoder eo fuel di dh).1.length = fuel ∧
      (greedyDecodeLoop decoder eo fuel di dh).2.length = fuel := by
  intro fuel
  induction fuel with
  | zero => intro di dh; exact ⟨rfl, rfl⟩
  | succ n ih =>
    intro di dh
    simp only [greedyDecodeLoop, List.length_cons]
    constructor
    · rw [(ih _ _).1]
    · rw [(ih _ _).2]

/-- C7: for every encoder, decoder, input sequence, input length and
configured max_length, GreedySearchDecoder.forward terminates (it is a
total function) after exactly max_length decoder steps, with no early stop
when the end-of-sequence token is predicted (the token and score sequences
have length exactly max_length whatever tokens the decoder produces), and
in particular both output sequences are no longer than max_length. -/
theorem greedy_search_fixed_length {E H : Type} (encoder : List Nat → Nat → E × H)
    (truncHidden : H → H) (decoder : Nat → H → E → List ℚ × H)
    (input_seq : List Nat) (input_length : Nat) (max_length : Nat) :
    (greedySearchForward encoder truncHidden decoder input_seq input_length max_length).1.length
      = max_length ∧
    (greedySearchForward encoder truncHidden decoder input_seq input_length max_length).2.length
      = max_length ∧
    (greedySearchForward encoder truncHidden decoder input_seq input_length max_length).1.length
      ≤ max_length ∧
    (greedySearchForward encoder truncHidden decoder input_seq input_length max_length).2.length
      ≤ max_length := by
  obtain ⟨h1, h2⟩ := greedyDecodeLoop_length decoder
    (encoder input_seq input_length).1 max_length SOS_token
    (truncHidden (encoder input_seq input_length).2)
  exact ⟨h1, h2, Nat.le_of_eq h1, Nat.le_of_eq h2⟩

/-- The Attn attention layer (lines 593-604): the state records the chosen
method, the hidden size, and which learned parameters the constructor
allocated (self.attn for general and concat, self.v for concat only). -/
structure Attn where
  method : String
  hidden_size : Nat
  hasAttnLayer : Bool
  hasV : Bool
  deriving DecidableEq

/-- Attn.__init__ (lines 594-604): store the method name, raise ValueError
at construction time when it is not one of dot, general, concat, and
otherwise allocate the layers the method needs. The ValueError payload is
the (method, message) pair passed to the exception. -/
def Attn.init (method : String) (hidden_size : Nat) : Except (String × String) Attn :=
  if method ∉ ["dot", "general", "concat"] then
    Except.error (method, "is not an appropriate attention method.")
  else if method = "general" then
    Except.ok ⟨method, hidden_size, true, false⟩
  else if method = "concat" then
    Except.ok ⟨method, hidden_size, true, true⟩
  else
    Except.ok ⟨method, hidden_size, false, false⟩

/-- C8: constructing the Attn scorer with a method name outside
{dot, general, concat} fails at construction time with the ValueError of
Attn.__init__, before any forward call can happen; for a method name in the
set, construction succeeds. -/
theorem attn_init_fail_fast (method : String) (hidden_size : Nat) :
    (method ∉ ["dot", "general", "concat"] →
      Attn.init method hidden_size =
        Except.error (method, "is not an appropriate attention method.")) ∧
    (method ∈ ["dot", "general", "concat"] →
      ∃ a, Attn.init method hidden_size = Except.ok a) := by
  constructor
  · intro h
    simp [Attn.init, h]
  · intro h
    unfold Attn.init
    rw [if_neg (not_not_intro h)]
    by_cases hg : method = "general"
    · rw [if_pos hg]
      exact ⟨_, rfl⟩
    · rw [if_neg hg]
      by_cases hc : method = "concat"
      · rw [if_pos hc]
        exact ⟨_, rfl⟩
      · rw [if_neg hc]
        exact ⟨_, rfl⟩

/-- Witness for C8: construction succeeds for dot and fails for a name
outside the set. -/
theorem attn_init_fail_fast_witness :
    (∃ a, Attn.init "dot" 500 = Except.ok a) ∧
    Attn.init "bilinear" 500 =
      Except.error ("bilinear", "is not an appropriate attention method.") :=
  ⟨(attn_init_fail_fast "dot" 500).2 (by decide),
   (attn_init_fail_fast "bilinear" 500).1 (by decide)⟩
